import Mathlib

/-!
Shallow embedding of `src/optimisation_algorithms/Heuristic/HarmonySearch.py`.

Harmonies are vectors of rationals (`List ℚ`), a Harmony Memory is a list of
harmonies (`List (List ℚ)`), and the objective function is an arbitrary
`f : List ℚ → ℚ`.  Randomness is made explicit: every call of
`np.random.rand` / `np.random.uniform` in the Python source becomes one field
of an explicitly passed stream of draws, so each Python method becomes a
pure Lean function of the memory and the draws it consumes.
-/

namespace HarmonySearch

/-- The `eval(hm)` method: `np.apply_along_axis(self.f, 1, hm)` maps the objective
function over the rows of the memory. -/
def eval (f : List ℚ → ℚ) (hm : List (List ℚ)) : List ℚ :=
  hm.map f

/-- Maximum of a list of fitness values (the value `np.max` would return);
`0` on the empty list, which numpy instead rejects. -/
def maxQ : List ℚ → ℚ
  | [] => 0
  | [x] => x
  | x :: y :: ys => max x (maxQ (y :: ys))

/-- Minimum of a list of fitness values; `0` on the empty list. -/
def minQ : List ℚ → ℚ
  | [] => 0
  | [x] => x
  | x :: y :: ys => min x (minQ (y :: ys))

/-- Embedding of `np.argmax`: index of the first occurrence of the maximum. -/
def argmax : List ℚ → Nat
  | [] => 0
  | [_] => 0
  | x :: y :: ys => if maxQ (y :: ys) ≤ x then 0 else argmax (y :: ys) + 1

/-- Embedding of `np.argmin`: index of the first occurrence of the minimum. -/
def argmin : List ℚ → Nat
  | [] => 0
  | [_] => 0
  | x :: y :: ys => if x ≤ minQ (y :: ys) then 0 else argmin (y :: ys) + 1

/-- The `change_hm(old_hm, new_hm)` method: evaluate both memories, find the worst old
harmony and the best new one, and replace the former with the latter when the
latter is strictly better (`HarmonySearch.py` lines 134-143). -/
def change_hm (f : List ℚ → ℚ) (old_hm new_hm : List (List ℚ)) : List (List ℚ) :=
  let old_results := eval f old_hm
  let new_results := eval f new_hm
  let old_worst_i := argmax old_results
  let new_best_i := argmin new_results
  if new_results.getD new_best_i 0 < old_results.getD old_worst_i 0 then
    old_hm.set old_worst_i (new_hm.getD new_best_i [])
  else
    old_hm

/-- The four random draws the body of `improvise`'s loop makes for one row:
`u1 = np.random.rand()`, `fresh = np.random.uniform(rand_min, rand_max, 1)`,
`u2 = np.random.rand()`, `offset = np.random.uniform(-bw, bw, 1)`. -/
structure Draws where
  u1 : ℚ
  fresh : ℚ
  u2 : ℚ
  offset : ℚ
  deriving DecidableEq, Repr

/-- One iteration of `improvise`'s loop body acting on one row.
`new_hm[row][np.random.rand() > self.hmcr] = np.random.uniform(..., 1)`
indexes the row with a boolean scalar: when the scalar is `True` the whole
row is selected and the one-element right-hand side broadcasts over it, so
every coordinate is set to the same fresh value; when `False` nothing is
selected and nothing is written.  The `+=` line behaves the same way with
the shared offset. -/
def improviseRow (hmcr par : ℚ) (dr : Draws) (row : List ℚ) : List ℚ :=
  let r1 := if hmcr < dr.u1 then row.map (fun _ => dr.fresh) else row
  if par < dr.u2 then r1.map (fun x => x + dr.offset) else r1

/-- The `improvise(hm)` method: deep-copy the memory, then loop over the row indices,
rewriting row `i` in place in the copy (`HarmonySearch.py` lines 110-116). -/
def improvise (hmcr par : ℚ) (draws : Nat → Draws) (hm : List (List ℚ)) :
    List (List ℚ) :=
  (List.range hm.length).foldl
    (fun new_hm i => new_hm.set i (improviseRow hmcr par (draws i) (new_hm.getD i [])))
    hm

/-- State-passing rendering of `improvise`: the state is the pair
`(hm, new_hm)` of the argument array and the deep copy; each loop iteration
writes only into the copy.  Used to express that the Python input array is
not mutated. -/
def improvisePair (hmcr par : ℚ) (draws : Nat → Draws) (hm : List (List ℚ)) :
    List (List ℚ) × List (List ℚ) :=
  (List.range hm.length).foldl
    (fun st i => (st.1, st.2.set i (improviseRow hmcr par (draws i) (st.2.getD i []))))
    (hm, hm)

/-- The `generate_hm()` method: an `hms × d` array of draws from
`np.random.uniform(rand_min, rand_max, (hms, d))`; `sample i j` is the draw
at row `i`, column `j`. -/
def generate_hm (hms d : Nat) (sample : Nat → Nat → ℚ) : List (List ℚ) :=
  (List.range hms).map (fun i => (List.range d).map (fun j => sample i j))

/-- One iteration of `find_harmony`'s loop: improvise a candidate memory and
merge it back with `change_hm`. -/
def searchStep (f : List ℚ → ℚ) (hmcr par : ℚ) (rowDraws : Nat → Draws)
    (hm : List (List ℚ)) : List (List ℚ) :=
  change_hm f hm (improvise hmcr par rowDraws hm)

/-- The loop `for _ in range(max_iter)`: iterate `searchStep`, iteration `k` consuming
the draw stream `draws k`. -/
def searchLoop (f : List ℚ → ℚ) (hmcr par : ℚ) (draws : Nat → Nat → Draws)
    (max_iter : Nat) (hm0 : List (List ℚ)) : List (List ℚ) :=
  (List.range max_iter).foldl (fun hm k => searchStep f hmcr par (draws k) hm) hm0

/-- The `find_harmony()` method (`HarmonySearch.py` lines 167-176): generate the initial
memory, evaluate it once (the warm-up at line 168, whose value the loop
overwrites whenever it runs), run the loop, and return the row of the final
memory at the index of minimum fitness.  After the loop the Python variable
`results` holds `eval` of the final memory — also when `max_iter = 0`, since
then the final memory is the initial one — so it is written as such here. -/
def find_harmony (f : List ℚ → ℚ) (hms d : Nat) (hmcr par : ℚ) (max_iter : Nat)
    (sample : Nat → Nat → ℚ) (draws : Nat → Nat → Draws) : List ℚ :=
  let hm0 := generate_hm hms d sample
  let _warmup := eval f hm0
  let hm := searchLoop f hmcr par draws max_iter hm0
  let results := eval f hm
  hm.getD (argmin results) []

/-- A memory has shape `hms × d`: exactly `hms` rows of `d` entries each. -/
def Shape (hms d : Nat) (hm : List (List ℚ)) : Prop :=
  hm.length = hms ∧ ∀ row ∈ hm, row.length = d

/-- A concrete objective function (the first coordinate of the harmony),
used to instantiate the generic theorems on concrete memories. -/
def headQ (r : List ℚ) : ℚ := r.headD 0

/-! ### Facts about `maxQ`, `minQ`, `argmax`, `argmin` -/

theorem le_maxQ_of_mem : ∀ {l : List ℚ} {x : ℚ}, x ∈ l → x ≤ maxQ l := by
  intro l
  induction l with
  | nil => intro x h; cases h
  | cons a t ih =>
    intro x h
    cases t with
    | nil =>
      rcases List.mem_cons.mp h with rfl | h2
      · simp [maxQ]
      · cases h2
    | cons b t2 =>
      rcases List.mem_cons.mp h with rfl | h2
      · simp [maxQ]
      · exact le_trans (ih h2) (by simp [maxQ])

theorem minQ_le_of_mem : ∀ {l : List ℚ} {x : ℚ}, x ∈ l → minQ l ≤ x := by
  intro l
  induction l with
  | nil => intro x h; cases h
  | cons a t ih =>
    intro x h
    cases t with
    | nil =>
      rcases List.mem_cons.mp h with rfl | h2
      · simp [minQ]
      · cases h2
    | cons b t2 =>
      rcases List.mem_cons.mp h with rfl | h2
      · simp [minQ]
      · exact le_trans (by simp [minQ]) (ih h2)

theorem maxQ_le_of_forall : ∀ {l : List ℚ} {b : ℚ}, l ≠ [] →
    (∀ x ∈ l, x ≤ b) → maxQ l ≤ b := by
  intro l
  induction l with
  | nil => intro b h; exact absurd rfl h
  | cons a t ih =>
    intro b _ hall
    cases t with
    | nil => simpa [maxQ] using hall a (by simp)
    | cons c t2 =>
      have h1 : a ≤ b := hall a (by simp)
      have h2 : maxQ (c :: t2) ≤ b :=
        ih (by simp) (fun x hx => hall x (List.mem_cons_of_mem a hx))
      simpa [maxQ] using max_le h1 h2

theorem argmax_lt_length : ∀ {l : List ℚ}, l ≠ [] → argmax l < l.length := by
  intro l
  induction l with
  | nil => intro h; exact absurd rfl h
  | cons a t ih =>
    intro _
    cases t with
    | nil => simp [argmax]
    | cons c t2 =>
      by_cases hc : maxQ (c :: t2) ≤ a
      · simp [argmax, hc]
      · have := ih (by simp)
        simp only [argmax, hc, if_false, List.length_cons] at this ⊢
        omega

theorem argmin_lt_length : ∀ {l : List ℚ}, l ≠ [] → argmin l < l.length := by
  intro l
  induction l with
  | nil => intro h; exact absurd rfl h
  | cons a t ih =>
    intro _
    cases t with
    | nil => simp [argmin]
    | cons c t2 =>
      by_cases hc : a ≤ minQ (c :: t2)
      · simp [argmin, hc]
      · have := ih (by simp)
        simp only [argmin, hc, if_false, List.length_cons] at this ⊢
        omega

theorem getD_argmax : ∀ {l : List ℚ}, l ≠ [] → l.getD (argmax l) 0 = maxQ l := by
  intro l
  induction l with
  | nil => intro h; exact absurd rfl h
  | cons a t ih =>
    intro _
    cases t with
    | nil => simp [argmax, maxQ]
    | cons c t2 =>
      by_cases hc : maxQ (c :: t2) ≤ a
      · simp [argmax, maxQ, hc, max_eq_left hc]
      · have hlt : a ≤ maxQ (c :: t2) := le_of_lt (lt_of_not_le hc)
        simp only [argmax, hc, if_false, maxQ, List.getD_cons_succ]
        rw [ih (by simp)]
        exact (max_eq_right hlt).symm

theorem getD_argmin : ∀ {l : List ℚ}, l ≠ [] → l.getD (argmin l) 0 = minQ l := by
  intro l
  induction l with
  | nil => intro h; exact absurd rfl h
  | cons a t ih =>
    intro _
    cases t with
    | nil => simp [argmin, minQ]
    | cons c t2 =>
      by_cases hc : a ≤ minQ (c :: t2)
      · simp [argmin, minQ, hc, min_eq_left hc]
      · have hlt : minQ (c :: t2) ≤ a := le_of_lt (lt_of_not_le hc)
        simp only [argmin, hc, if_false, minQ, List.getD_cons_succ]
        rw [ih (by simp)]
        exact (min_eq_right hlt).symm

/-! ### Facts about `eval` -/

theorem eval_length (f : List ℚ → ℚ) (hm : List (List ℚ)) :
    (eval f hm).length = hm.length :=
  List.length_map hm f

theorem eval_getD (f : List ℚ → ℚ) (hm : List (List ℚ)) {i : Nat}
    (hi : i < hm.length) : (eval f hm).getD i 0 = f (hm.getD i []) := by
  have hi' : i < (eval f hm).length := by rw [eval_length]; exact hi
  rw [List.getD_eq_getElem _ _ hi', List.getD_eq_getElem _ _ hi]
  exact List.getElem_map f

/-! ### Generic list access lemmas -/

theorem getD_mem {α : Type} (l : List α) (d : α) {i : Nat} (hi : i < l.length) :
    l.getD i d ∈ l := by
  rw [List.getD_eq_getElem _ _ hi]
  exact List.getElem_mem hi

theorem getD_set_ne {α : Type} (l : List α) (m i : Nat) (a d : α) (h : m ≠ i) :
    (l.set m a).getD i d = l.getD i d := by
  rw [List.getD_eq_getElem?_getD, List.getD_eq_getElem?_getD, List.getElem?_set_ne h]

theorem getD_set_self {α : Type} (l : List α) (i : Nat) (a d : α) (hi : i < l.length) :
    (l.set i a).getD i d = a := by
  have hi' : i < (l.set i a).length := by rw [List.length_set]; exact hi
  rw [List.getD_eq_getElem _ _ hi']
  exact List.getElem_set_self hi'

theorem getD_map (g : ℚ → ℚ) (row : List ℚ) {j : Nat} (hj : j < row.length) :
    (row.map g).getD j 0 = g (row.getD j 0) := by
  have hj' : j < (row.map g).length := by rw [List.length_map]; exact hj
  rw [List.getD_eq_getElem _ _ hj', List.getD_eq_getElem _ _ hj]
  exact List.getElem_map g

/-! ### Facts about the fold that implements `improvise`'s loop -/

theorem foldl_set_length (upd : Nat → List ℚ → List ℚ) :
    ∀ (ks : List Nat) (l : List (List ℚ)),
      (ks.foldl (fun acc k => acc.set k (upd k (acc.getD k []))) l).length = l.length := by
  intro ks
  induction ks with
  | nil => intro l; rfl
  | cons k ks ih => intro l; rw [List.foldl_cons, ih, List.length_set]

theorem foldl_set_getD_ge (upd : Nat → List ℚ → List ℚ) :
    ∀ (n : Nat) (l : List (List ℚ)) (i : Nat), n ≤ i →
      ((List.range n).foldl (fun acc k => acc.set k (upd k (acc.getD k []))) l).getD i []
        = l.getD i [] := by
  intro n
  induction n with
  | zero => intro l i _; rfl
  | succ n ih =>
    intro l i hi
    rw [List.range_succ, List.foldl_append, List.foldl_cons, List.foldl_nil,
      getD_set_ne _ _ _ _ _ (by omega), ih l i (by omega)]

theorem foldl_set_getD_lt (upd : Nat → List ℚ → List ℚ) :
    ∀ (n : Nat) (l : List (List ℚ)) (i : Nat), i < n → n ≤ l.length →
      ((List.range n).foldl (fun acc k => acc.set k (upd k (acc.getD k []))) l).getD i []
        = upd i (l.getD i []) := by
  intro n
  induction n with
  | zero => intro l i hi _; omega
  | succ n ih =>
    intro l i hi hn
    rw [List.range_succ, List.foldl_append, List.foldl_cons, List.foldl_nil]
    rcases Nat.lt_or_ge i n with hlt | hge
    · rw [getD_set_ne _ _ _ _ _ (by omega), ih l i hlt (by omega)]
    · have hi' : i = n := by omega
      subst hi'
      have hlen : i < ((List.range i).foldl
          (fun acc k => acc.set k (upd k (acc.getD k []))) l).length := by
        rw [foldl_set_length]; omega
      rw [getD_set_self _ _ _ _ hlen, foldl_set_getD_ge upd i l i (le_refl i)]

/-! ### Facts about `improvise` -/

theorem improviseRow_length (hmcr par : ℚ) (dr : Draws) (row : List ℚ) :
    (improviseRow hmcr par dr row).length = row.length := by
  unfold improviseRow
  by_cases h1 : hmcr < dr.u1 <;> by_cases h2 : par < dr.u2 <;> simp [h1, h2]

theorem improviseRow_getD (hmcr par : ℚ) (dr : Draws) (row : List ℚ) {j : Nat}
    (hj : j < row.length) :
    (improviseRow hmcr par dr row).getD j 0 =
      (if par < dr.u2 then
        (if hmcr < dr.u1 then dr.fresh else row.getD j 0) + dr.offset
      else
        (if hmcr < dr.u1 then dr.fresh else row.getD j 0)) := by
  simp only [improviseRow]
  by_cases h2 : par < dr.u2
  · rw [if_pos h2, if_pos h2]
    by_cases h1 : hmcr < dr.u1
    · rw [if_pos h1, if_pos h1,
        getD_map _ _ (by rw [List.length_map]; exact hj), getD_map _ _ hj]
    · rw [if_neg h1, if_neg h1, getD_map _ _ hj]
  · rw [if_neg h2, if_neg h2]
    by_cases h1 : hmcr < dr.u1
    · rw [if_pos h1, if_pos h1, getD_map _ _ hj]
    · rw [if_neg h1, if_neg h1]

theorem improvise_length (hmcr par : ℚ) (draws : Nat → Draws) (hm : List (List ℚ)) :
    (improvise hmcr par draws hm).length = hm.length :=
  foldl_set_length (fun i row => improviseRow hmcr par (draws i) row)
    (List.range hm.length) hm

theorem improvise_getD (hmcr par : ℚ) (draws : Nat → Draws) (hm : List (List ℚ))
    {i : Nat} (hi : i < hm.length) :
    (improvise hmcr par draws hm).getD i [] =
      improviseRow hmcr par (draws i) (hm.getD i []) :=
  foldl_set_getD_lt (fun i row => improviseRow hmcr par (draws i) row)
    hm.length hm i hi (le_refl _)

/-! ### The state-passing rendering of `improvise` -/

theorem foldl_pair_fst {α β : Type} (g : α × β → Nat → β) :
    ∀ (ks : List Nat) (st : α × β),
      (ks.foldl (fun st i => (st.1, g st i)) st).1 = st.1 := by
  intro ks
  induction ks with
  | nil => intro st; rfl
  | cons k ks ih => intro st; rw [List.foldl_cons, ih]

theorem foldl_pair_snd {α β : Type} (g : β → Nat → β) :
    ∀ (ks : List Nat) (a : α) (b : β),
      (ks.foldl (fun st i => (st.1, g st.2 i)) (a, b)).2 = ks.foldl g b := by
  intro ks
  induction ks with
  | nil => intro a b; rfl
  | cons k ks ih =>
    intro a b
    rw [List.foldl_cons, List.foldl_cons]
    exact ih a (g b k)

theorem improvisePair_fst (hmcr par : ℚ) (draws : Nat → Draws) (hm : List (List ℚ)) :
    (improvisePair hmcr par draws hm).1 = hm := by
  unfold improvisePair
  exact foldl_pair_fst
    (fun st i => st.2.set i (improviseRow hmcr par (draws i) (st.2.getD i [])))
    (List.range hm.length) (hm, hm)

theorem improvisePair_snd (hmcr par : ℚ) (draws : Nat → Draws) (hm : List (List ℚ)) :
    (improvisePair hmcr par draws hm).2 = improvise hmcr par draws hm := by
  unfold improvisePair improvise
  exact foldl_pair_snd
    (fun x i => x.set i (improviseRow hmcr par (draws i) (x.getD i [])))
    (List.range hm.length) hm hm

/-! ### Facts about `change_hm`, `generate_hm` and the search loop -/

theorem change_hm_eq (f : List ℚ → ℚ) (old_hm new_hm : List (List ℚ)) :
    change_hm f old_hm new_hm =
      if (eval f new_hm).getD (argmin (eval f new_hm)) 0 <
          (eval f old_hm).getD (argmax (eval f old_hm)) 0 then
        old_hm.set (argmax (eval f old_hm)) (new_hm.getD (argmin (eval f new_hm)) [])
      else
        old_hm := rfl

theorem shape_generate (hms d : Nat) (sample : Nat → Nat → ℚ) :
    Shape hms d (generate_hm hms d sample) := by
  constructor
  · simp [generate_hm]
  · intro row hrow
    simp only [generate_hm, List.mem_map] at hrow
    obtain ⟨i, _, hrow⟩ := hrow
    rw [← hrow]
    simp

theorem shape_improvise {hms d : Nat} {hm : List (List ℚ)} (hmcr par : ℚ)
    (draws : Nat → Draws) (h : Shape hms d hm) :
    Shape hms d (improvise hmcr par draws hm) := by
  obtain ⟨hlen, hrows⟩ := h
  constructor
  · rw [improvise_length, hlen]
  · intro row hrow
    rw [List.mem_iff_getElem] at hrow
    obtain ⟨i, hi, hrow⟩ := hrow
    have hi' : i < hm.length := by
      rw [← improvise_length hmcr par draws hm]; exact hi
    rw [← hrow, ← List.getD_eq_getElem _ [] hi, improvise_getD hmcr par draws hm hi',
      improviseRow_length]
    exact hrows _ (getD_mem hm [] hi')

theorem shape_change_hm {hms d : Nat} {old_hm new_hm : List (List ℚ)}
    (f : List ℚ → ℚ) (h1 : Shape hms d old_hm) (h2 : Shape hms d new_hm) :
    Shape hms d (change_hm f old_hm new_hm) := by
  rw [change_hm_eq]
  by_cases hcond : (eval f new_hm).getD (argmin (eval f new_hm)) 0 <
      (eval f old_hm).getD (argmax (eval f old_hm)) 0
  · rw [if_pos hcond]
    have hnew_ne : new_hm ≠ [] := by
      intro hnil
      have hold_nil : old_hm = [] := by
        have := h1.1
        rw [← h2.1, hnil] at this
        exact List.length_eq_zero.mp this
      rw [hnil, hold_nil] at hcond
      simp [eval, argmin, argmax] at hcond
    constructor
    · rw [List.length_set]; exact h1.1
    · intro row hrow
      rcases List.mem_or_eq_of_mem_set hrow with hmem | heq
      · exact h1.2 row hmem
      · rw [heq]
        have hbi : argmin (eval f new_hm) < new_hm.length := by
          rw [← eval_length f new_hm]
          exact argmin_lt_length (by
            intro hnil
            exact hnew_ne (by
              have := eval_length f new_hm
              rw [hnil] at this
              exact List.length_eq_zero.mp this.symm))
        exact h2.2 _ (getD_mem new_hm [] hbi)
  · rw [if_neg hcond]; exact h1

theorem shape_searchStep {hms d : Nat} {hm : List (List ℚ)} (f : List ℚ → ℚ)
    (hmcr par : ℚ) (rowDraws : Nat → Draws) (h : Shape hms d hm) :
    Shape hms d (searchStep f hmcr par rowDraws hm) :=
  shape_change_hm f h (shape_improvise hmcr par rowDraws h)

theorem searchLoop_zero (f : List ℚ → ℚ) (hmcr par : ℚ) (draws : Nat → Nat → Draws)
    (hm0 : List (List ℚ)) : searchLoop f hmcr par draws 0 hm0 = hm0 := rfl

theorem searchLoop_succ (f : List ℚ → ℚ) (hmcr par : ℚ) (draws : Nat → Nat → Draws)
    (n : Nat) (hm0 : List (List ℚ)) :
    searchLoop f hmcr par draws (n + 1) hm0 =
      searchStep f hmcr par (draws n) (searchLoop f hmcr par draws n hm0) := by
  unfold searchLoop
  rw [List.range_succ, List.foldl_append, List.foldl_cons, List.foldl_nil]

theorem shape_searchLoop {hms d : Nat} {hm0 : List (List ℚ)} (f : List ℚ → ℚ)
    (hmcr par : ℚ) (draws : Nat → Nat → Draws) (n : Nat) (h : Shape hms d hm0) :
    Shape hms d (searchLoop f hmcr par draws n hm0) := by
  induction n with
  | zero => exact h
  | succ n ih =>
    rw [searchLoop_succ]
    exact shape_searchStep f hmcr par (draws n) ih

theorem eval_ne_nil (f : List ℚ → ℚ) {hm : List (List ℚ)} (h : hm ≠ []) :
    eval f hm ≠ [] := by
  intro hnil
  apply h
  have hlen := eval_length f hm
  rw [hnil] at hlen
  exact List.length_eq_zero.mp hlen.symm

theorem ne_nil_of_length_eq {α β : Type} {l : List α} {l' : List β}
    (h : l.length = l'.length) (h' : l' ≠ []) : l ≠ [] := by
  intro hnil
  apply h'
  rw [hnil] at h
  exact List.length_eq_zero.mp h.symm

/-! ### Claim theorems -/

/-- C1: for every pair of Harmony Memories of equal shape and every
deterministic objective function `f`, after `change_hm(old_hm, new_hm)` the
maximum fitness over the resulting memory is at most the maximum fitness
over the original `old_hm`. -/
theorem change_hm_max_nonincreasing (f : List ℚ → ℚ) (old_hm new_hm : List (List ℚ))
    (h1 : old_hm ≠ []) (h2 : new_hm.length = old_hm.length) :
    maxQ (eval f (change_hm f old_hm new_hm)) ≤ maxQ (eval f old_hm) := by
  have hnew : new_hm ≠ [] := ne_nil_of_length_eq h2 h1
  have hor : eval f old_hm ≠ [] := eval_ne_nil f h1
  have hnr : eval f new_hm ≠ [] := eval_ne_nil f hnew
  rw [change_hm_eq]
  by_cases hcond : (eval f new_hm).getD (argmin (eval f new_hm)) 0 <
      (eval f old_hm).getD (argmax (eval f old_hm)) 0
  · rw [if_pos hcond]
    have hbi : argmin (eval f new_hm) < new_hm.length := by
      rw [← eval_length f new_hm]; exact argmin_lt_length hnr
    have hset : eval f (old_hm.set (argmax (eval f old_hm))
        (new_hm.getD (argmin (eval f new_hm)) [])) =
        (eval f old_hm).set (argmax (eval f old_hm))
          (f (new_hm.getD (argmin (eval f new_hm)) [])) := by
      simp [eval, List.map_set]
    rw [hset]
    apply maxQ_le_of_forall
    · intro hnil
      apply hor
      have hlen : ((eval f old_hm).set (argmax (eval f old_hm))
          (f (new_hm.getD (argmin (eval f new_hm)) []))).length =
          (eval f old_hm).length := List.length_set _ _ _
      rw [hnil] at hlen
      exact List.length_eq_zero.mp hlen.symm
    · intro x hx
      rcases List.mem_or_eq_of_mem_set hx with hmem | heq
      · exact le_maxQ_of_mem hmem
      · rw [heq, ← eval_getD f new_hm hbi]
        rw [getD_argmax hor] at hcond
        exact le_of_lt hcond
  · rw [if_neg hcond]

/-- Witness for C1 at a concrete input. -/
theorem change_hm_max_nonincreasing_witness :
    ([[(0 : ℚ)], [1]] : List (List ℚ)) ≠ [] ∧
    ([[(2 : ℚ)], [-1]] : List (List ℚ)).length = ([[(0 : ℚ)], [1]] : List (List ℚ)).length ∧
    maxQ (eval headQ (change_hm headQ [[(0 : ℚ)], [1]] [[(2 : ℚ)], [-1]])) ≤
      maxQ (eval headQ [[(0 : ℚ)], [1]]) :=
  ⟨by decide, by decide,
    change_hm_max_nonincreasing headQ [[(0 : ℚ)], [1]] [[(2 : ℚ)], [-1]]
      (by decide) (by decide)⟩

/-- C3: if the best new fitness strictly beats the worst old fitness, then
`change_hm` rewrites exactly the row at the first index of maximum old
fitness with the row of `new_hm` at the first index of minimum new fitness
(a row genuinely different from the one it replaces), and leaves every other
row unchanged. -/
theorem change_hm_improvement (f : List ℚ → ℚ) (old_hm new_hm : List (List ℚ))
    (h1 : old_hm ≠ []) (h2 : new_hm.length = old_hm.length)
    (himp : minQ (eval f new_hm) < maxQ (eval f old_hm)) :
    (change_hm f old_hm new_hm).getD (argmax (eval f old_hm)) [] =
      new_hm.getD (argmin (eval f new_hm)) [] ∧
    (∀ i, i ≠ argmax (eval f old_hm) →
      (change_hm f old_hm new_hm).getD i [] = old_hm.getD i []) ∧
    new_hm.getD (argmin (eval f new_hm)) [] ≠ old_hm.getD (argmax (eval f old_hm)) [] := by
  have hnew : new_hm ≠ [] := ne_nil_of_length_eq h2 h1
  have hor : eval f old_hm ≠ [] := eval_ne_nil f h1
  have hnr : eval f new_hm ≠ [] := eval_ne_nil f hnew
  have hbi : argmin (eval f new_hm) < new_hm.length := by
    rw [← eval_length f new_hm]; exact argmin_lt_length hnr
  have hwi : argmax (eval f old_hm) < old_hm.length := by
    rw [← eval_length f old_hm]; exact argmax_lt_length hor
  have hcond : (eval f new_hm).getD (argmin (eval f new_hm)) 0 <
      (eval f old_hm).getD (argmax (eval f old_hm)) 0 := by
    rw [getD_argmin hnr, getD_argmax hor]; exact himp
  have hch : change_hm f old_hm new_hm =
      old_hm.set (argmax (eval f old_hm)) (new_hm.getD (argmin (eval f new_hm)) []) := by
    rw [change_hm_eq, if_pos hcond]
  refine ⟨?_, ?_, ?_⟩
  · rw [hch]
    exact getD_set_self _ _ _ _ hwi
  · intro i hi
    rw [hch]
    exact getD_set_ne _ _ _ _ _ (fun heq => hi heq.symm)
  · intro heq
    have hfe : f (new_hm.getD (argmin (eval f new_hm)) []) =
        f (old_hm.getD (argmax (eval f old_hm)) []) := by rw [heq]
    rw [← eval_getD f new_hm hbi, ← eval_getD f old_hm hwi,
      getD_argmin hnr, getD_argmax hor] at hfe
    exact absurd hfe (ne_of_lt himp)

/-- Witness for C3 at a concrete input. -/
theorem change_hm_improvement_witness :
    ([[(0 : ℚ)], [3]] : List (List ℚ)) ≠ [] ∧
    ([[(1 : ℚ)], [2]] : List (List ℚ)).length = ([[(0 : ℚ)], [3]] : List (List ℚ)).length ∧
    minQ (eval headQ [[(1 : ℚ)], [2]]) < maxQ (eval headQ [[(0 : ℚ)], [3]]) ∧
    ((change_hm headQ [[(0 : ℚ)], [3]] [[(1 : ℚ)], [2]]).getD
        (argmax (eval headQ [[(0 : ℚ)], [3]])) [] =
      ([[(1 : ℚ)], [2]] : List (List ℚ)).getD (argmin (eval headQ [[(1 : ℚ)], [2]])) [] ∧
    (∀ i, i ≠ argmax (eval headQ [[(0 : ℚ)], [3]]) →
      (change_hm headQ [[(0 : ℚ)], [3]] [[(1 : ℚ)], [2]]).getD i [] =
        ([[(0 : ℚ)], [3]] : List (List ℚ)).getD i []) ∧
    ([[(1 : ℚ)], [2]] : List (List ℚ)).getD (argmin (eval headQ [[(1 : ℚ)], [2]])) [] ≠
      ([[(0 : ℚ)], [3]] : List (List ℚ)).getD (argmax (eval headQ [[(0 : ℚ)], [3]])) []) :=
  ⟨by decide, by decide, by decide,
    change_hm_improvement headQ [[(0 : ℚ)], [3]] [[(1 : ℚ)], [2]]
      (by decide) (by decide) (by decide)⟩

/-- C4: if every harmony in `new_hm` has fitness at least the worst fitness
in `old_hm` (ties included, since replacement requires strict inequality),
then `change_hm` returns `old_hm` unchanged. -/
theorem change_hm_noop (f : List ℚ → ℚ) (old_hm new_hm : List (List ℚ))
    (h1 : old_hm ≠ []) (h2 : new_hm.length = old_hm.length)
    (h : ∀ r ∈ new_hm, maxQ (eval f old_hm) ≤ f r) :
    change_hm f old_hm new_hm = old_hm := by
  have hnew : new_hm ≠ [] := ne_nil_of_length_eq h2 h1
  have hor : eval f old_hm ≠ [] := eval_ne_nil f h1
  have hnr : eval f new_hm ≠ [] := eval_ne_nil f hnew
  have hbi : argmin (eval f new_hm) < new_hm.length := by
    rw [← eval_length f new_hm]; exact argmin_lt_length hnr
  rw [change_hm_eq]
  apply if_neg
  apply not_lt.mpr
  rw [getD_argmax hor, eval_getD f new_hm hbi]
  exact h _ (getD_mem new_hm [] hbi)

/-- Witness for C4 at a concrete input with an exact fitness tie. -/
theorem change_hm_noop_witness :
    ([[(0 : ℚ)], [1]] : List (List ℚ)) ≠ [] ∧
    ([[(1 : ℚ)], [2]] : List (List ℚ)).length = ([[(0 : ℚ)], [1]] : List (List ℚ)).length ∧
    (∀ r ∈ ([[(1 : ℚ)], [2]] : List (List ℚ)), maxQ (eval headQ [[(0 : ℚ)], [1]]) ≤ headQ r) ∧
    change_hm headQ [[(0 : ℚ)], [1]] [[(1 : ℚ)], [2]] = [[(0 : ℚ)], [1]] :=
  ⟨by decide, by decide, by decide,
    change_hm_noop headQ [[(0 : ℚ)], [1]] [[(1 : ℚ)], [2]]
      (by decide) (by decide) (by decide)⟩

/-- C5: `eval` returns one fitness per row, `eval(hm)[i] = f(hm[i])`,
preserving index order. -/
theorem eval_alignment (f : List ℚ → ℚ) (hm : List (List ℚ)) (_h : hm ≠ []) :
    (eval f hm).length = hm.length ∧
    ∀ i, i < hm.length → (eval f hm).getD i 0 = f (hm.getD i []) :=
  ⟨eval_length f hm, fun _ hi => eval_getD f hm hi⟩

/-- Witness for C5 at a concrete input. -/
theorem eval_alignment_witness :
    ([[(1 : ℚ), 2], [3]] : List (List ℚ)) ≠ [] ∧
    ((eval headQ [[(1 : ℚ), 2], [3]]).length = ([[(1 : ℚ), 2], [3]] : List (List ℚ)).length ∧
    ∀ i, i < ([[(1 : ℚ), 2], [3]] : List (List ℚ)).length →
      (eval headQ [[(1 : ℚ), 2], [3]]).getD i 0 =
        headQ (([[(1 : ℚ), 2], [3]] : List (List ℚ)).getD i [])) :=
  ⟨by decide, eval_alignment headQ [[(1 : ℚ), 2], [3]] (by decide)⟩

/-- C2 counterexample: the claimed per-coordinate improvisation semantics is
false of the code.  First conjunct: with `hmcr = 1/2`, `par = 1` and any
draws whose `u2` lies in `np.random.rand()`'s range, the code can never
replace only the first coordinate of the row `[0, 1000]` — the claimed
"that one coordinate's value (and only that coordinate) is replaced" output
`[7, 1000]` is unreachable, because the single per-row draw replaces all
coordinates or none.  Second conjunct: a concrete run in which one draw
above `hmcr = 0` replaces both coordinates with the same shared fresh value
while `par = 1` keeps the pitch adjustment off. -/
theorem improvise_per_coordinate_counterexample :
    (¬ ∃ dr : Draws, dr.u2 ≤ 1 ∧
      improviseRow (1/2) 1 dr [0, 1000] = [(7 : ℚ), 1000]) ∧
    improviseRow 0 1 ⟨1, 5, 0, 0⟩ [0, 1] = [(5 : ℚ), 5] := by
  constructor
  · rintro ⟨dr, hu2, heq⟩
    have hnp : ¬ ((1 : ℚ) < dr.u2) := not_lt.mpr hu2
    simp only [improviseRow, hnp, if_false] at heq
    by_cases h1 : (1 : ℚ)/2 < dr.u1
    · rw [if_pos h1] at heq
      simp only [List.map_cons, List.map_nil, List.cons.injEq, and_true] at heq
      have h7 : (7 : ℚ) = 1000 := heq.1.symm.trans heq.2
      exact absurd h7 (by norm_num)
    · rw [if_neg h1] at heq
      exact absurd heq (by decide)
  · decide

/-- C2 as amended: `improvise` makes its two probabilistic decisions once
per row, not per dimension.  For each row `i` and in-range coordinate `j`,
the output value is the input value, except: when the row's single draw
`u1` exceeds `hmcr`, every coordinate of the row is replaced by the row's
single shared fresh value; independently, when the row's single draw `u2`
exceeds `par`, the row's single shared offset is added to every coordinate. -/
theorem improvise_rowwise (hmcr par : ℚ) (draws : Nat → Draws)
    (hm : List (List ℚ)) (i j : Nat) (hi : i < hm.length)
    (hj : j < (hm.getD i []).length) :
    ((improvise hmcr par draws hm).getD i []).getD j 0 =
      (if par < (draws i).u2 then
        (if hmcr < (draws i).u1 then (draws i).fresh else (hm.getD i []).getD j 0)
          + (draws i).offset
      else
        (if hmcr < (draws i).u1 then (draws i).fresh else (hm.getD i []).getD j 0)) := by
  rw [improvise_getD hmcr par draws hm hi, improviseRow_getD hmcr par (draws i) _ hj]

/-- Witness for the amended C2 at a concrete input (replacement branch
taken, pitch branch not taken, so both sides evaluate to the shared fresh
value). -/
theorem improvise_rowwise_witness :
    (0 : Nat) < ([[(0 : ℚ), 1], [2, 3]] : List (List ℚ)).length ∧
    (1 : Nat) < (([[(0 : ℚ), 1], [2, 3]] : List (List ℚ)).getD 0 []).length ∧
    ((improvise (1/2) (1/2) (fun _ => ⟨1, 7, 0, 0⟩) [[(0 : ℚ), 1], [2, 3]]).getD 0 []).getD 1 0 =
      (if (1 : ℚ)/2 < (⟨1, 7, 0, 0⟩ : Draws).u2 then
        (if (1 : ℚ)/2 < (⟨1, 7, 0, 0⟩ : Draws).u1 then (⟨1, 7, 0, 0⟩ : Draws).fresh
          else (([[(0 : ℚ), 1], [2, 3]] : List (List ℚ)).getD 0 []).getD 1 0)
          + (⟨1, 7, 0, 0⟩ : Draws).offset
      else
        (if (1 : ℚ)/2 < (⟨1, 7, 0, 0⟩ : Draws).u1 then (⟨1, 7, 0, 0⟩ : Draws).fresh
          else (([[(0 : ℚ), 1], [2, 3]] : List (List ℚ)).getD 0 []).getD 1 0)) :=
  ⟨by decide, by decide,
    improvise_rowwise (1/2) (1/2) (fun _ => ⟨1, 7, 0, 0⟩) [[(0 : ℚ), 1], [2, 3]] 0 1
      (by decide) (by decide)⟩

/-- C6: `generate_hm()` returns exactly `hms` harmonies of exactly `d`
components each, every component inside the closed interval
`[rand_min, rand_max]` (the draws themselves come from numpy's half-open
uniform range, hypothesised here of the sample stream). -/
theorem generate_hm_shape (hms d : Nat) (rand_min rand_max : ℚ)
    (sample : Nat → Nat → ℚ) (_hhms : 1 ≤ hms) (_hd : 1 ≤ d)
    (_hrange : rand_min < rand_max)
    (hsample : ∀ i j, rand_min ≤ sample i j ∧ sample i j < rand_max) :
    (generate_hm hms d sample).length = hms ∧
    ∀ i, i < hms → ((generate_hm hms d sample).getD i []).length = d ∧
      ∀ j, j < d → rand_min ≤ ((generate_hm hms d sample).getD i []).getD j 0 ∧
        ((generate_hm hms d sample).getD i []).getD j 0 ≤ rand_max := by
  have hlen : (generate_hm hms d sample).length = hms := by simp [generate_hm]
  refine ⟨hlen, ?_⟩
  intro i hi
  have hi' : i < (generate_hm hms d sample).length := by rw [hlen]; exact hi
  have hrow : (generate_hm hms d sample).getD i [] = (List.range d).map (sample i) := by
    rw [List.getD_eq_getElem _ _ hi']
    simp [generate_hm]
  rw [hrow]
  constructor
  · simp
  · intro j hj
    have hj' : j < ((List.range d).map (sample i)).length := by simp [hj]
    rw [List.getD_eq_getElem _ _ hj']
    have hval : ((List.range d).map (sample i))[j] = sample i j := by
      rw [List.getElem_map]
      congr 1
      exact List.getElem_range j _
    rw [hval]
    exact ⟨(hsample i j).1, le_of_lt (hsample i j).2⟩

/-- Witness for C6 at a concrete configuration. -/
theorem generate_hm_shape_witness :
    (1 : Nat) ≤ 2 ∧ (0 : ℚ) < 1 ∧
    ((generate_hm 2 2 fun _ _ => 0).length = 2 ∧
    ∀ i, i < 2 → ((generate_hm 2 2 fun _ _ => 0).getD i []).length = 2 ∧
      ∀ j, j < 2 → (0 : ℚ) ≤ ((generate_hm 2 2 fun _ _ => 0).getD i []).getD j 0 ∧
        ((generate_hm 2 2 fun _ _ => 0).getD i []).getD j 0 ≤ 1) :=
  ⟨by decide, by decide,
    generate_hm_shape 2 2 0 1 (fun _ _ => 0) (by decide) (by decide) (by decide)
      (fun _ _ => (by decide : (0 : ℚ) ≤ 0 ∧ (0 : ℚ) < 1))⟩

/-- C7: `improvise` does not mutate its input and returns a memory of the
same shape.  In the state-passing rendering of the loop, the argument array
component of the state is untouched by every iteration, the copy component
is the returned memory, and the returned memory has the same number of rows
and the same row lengths as the input. -/
theorem improvise_no_mutation (hmcr par : ℚ) (draws : Nat → Draws)
    (hm : List (List ℚ)) :
    (improvisePair hmcr par draws hm).1 = hm ∧
    (improvisePair hmcr par draws hm).2 = improvise hmcr par draws hm ∧
    (improvise hmcr par draws hm).length = hm.length ∧
    ∀ i, i < hm.length →
      ((improvise hmcr par draws hm).getD i []).length = (hm.getD i []).length := by
  refine ⟨improvisePair_fst hmcr par draws hm, improvisePair_snd hmcr par draws hm,
    improvise_length hmcr par draws hm, ?_⟩
  intro i hi
  rw [improvise_getD hmcr par draws hm hi, improviseRow_length]

/-- Witness for C7 at a concrete input. -/
theorem improvise_no_mutation_witness :
    (improvisePair (1/2) (1/2) (fun _ => ⟨1, 7, 0, 0⟩) [[(0 : ℚ), 1], [2, 3]]).1 =
      [[(0 : ℚ), 1], [2, 3]] ∧
    (improvisePair (1/2) (1/2) (fun _ => ⟨1, 7, 0, 0⟩) [[(0 : ℚ), 1], [2, 3]]).2 =
      improvise (1/2) (1/2) (fun _ => ⟨1, 7, 0, 0⟩) [[(0 : ℚ), 1], [2, 3]] ∧
    (improvise (1/2) (1/2) (fun _ => ⟨1, 7, 0, 0⟩) [[(0 : ℚ), 1], [2, 3]]).length =
      ([[(0 : ℚ), 1], [2, 3]] : List (List ℚ)).length ∧
    ∀ i, i < ([[(0 : ℚ), 1], [2, 3]] : List (List ℚ)).length →
      ((improvise (1/2) (1/2) (fun _ => ⟨1, 7, 0, 0⟩) [[(0 : ℚ), 1], [2, 3]]).getD i []).length =
        (([[(0 : ℚ), 1], [2, 3]] : List (List ℚ)).getD i []).length :=
  improvise_no_mutation (1/2) (1/2) (fun _ => ⟨1, 7, 0, 0⟩) [[(0 : ℚ), 1], [2, 3]]

/-- C8: with `max_iter = n + 1 ≥ 1`, `find_harmony` runs exactly `n + 1`
iterations of improvise-then-select — its result is obtained from the memory
reached after one more `searchStep` past the first `n` iterations, with no
early stopping — and returns the row of that final memory at the index of
minimum fitness, a vector of length `d`. -/
theorem find_harmony_iterations (f : List ℚ → ℚ) (hmcr par : ℚ)
    (sample : Nat → Nat → ℚ) (draws : Nat → Nat → Draws) (hms d n : Nat)
    (hhms : 1 ≤ hms) :
    find_harmony f hms d hmcr par (n + 1) sample draws =
      (searchStep f hmcr par (draws n)
          (searchLoop f hmcr par draws n (generate_hm hms d sample))).getD
        (argmin (eval f (searchStep f hmcr par (draws n)
          (searchLoop f hmcr par draws n (generate_hm hms d sample))))) [] ∧
    (find_harmony f hms d hmcr par (n + 1) sample draws).length = d := by
  have hfh : find_harmony f hms d hmcr par (n + 1) sample draws =
      (searchLoop f hmcr par draws (n + 1) (generate_hm hms d sample)).getD
        (argmin (eval f (searchLoop f hmcr par draws (n + 1)
          (generate_hm hms d sample)))) [] := rfl
  constructor
  · rw [hfh, searchLoop_succ]
  · rw [hfh]
    have hshape : Shape hms d
        (searchLoop f hmcr par draws (n + 1) (generate_hm hms d sample)) :=
      shape_searchLoop f hmcr par draws (n + 1) (shape_generate hms d sample)
    have hne : searchLoop f hmcr par draws (n + 1) (generate_hm hms d sample) ≠ [] := by
      intro hnil
      have hl := hshape.1
      rw [hnil] at hl
      simp at hl
      omega
    have harg : argmin (eval f (searchLoop f hmcr par draws (n + 1)
        (generate_hm hms d sample))) <
        (searchLoop f hmcr par draws (n + 1) (generate_hm hms d sample)).length := by
      rw [← eval_length f]
      exact argmin_lt_length (eval_ne_nil f hne)
    exact hshape.2 _ (getD_mem _ _ harg)

/-- Witness for C8 at a concrete configuration with one iteration. -/
theorem find_harmony_iterations_witness :
    (1 : Nat) ≤ 1 ∧
    (find_harmony headQ 1 1 0 1 1 (fun _ _ => 0) (fun _ _ => ⟨1, 0, 0, 0⟩) =
      (searchStep headQ 0 1 ((fun _ _ => ⟨1, 0, 0, 0⟩ : Nat → Nat → Draws) 0)
          (searchLoop headQ 0 1 (fun _ _ => ⟨1, 0, 0, 0⟩) 0 (generate_hm 1 1 fun _ _ => 0))).getD
        (argmin (eval headQ (searchStep headQ 0 1 ((fun _ _ => ⟨1, 0, 0, 0⟩ : Nat → Nat → Draws) 0)
          (searchLoop headQ 0 1 (fun _ _ => ⟨1, 0, 0, 0⟩) 0 (generate_hm 1 1 fun _ _ => 0))))) [] ∧
    (find_harmony headQ 1 1 0 1 1 (fun _ _ => 0) (fun _ _ => ⟨1, 0, 0, 0⟩)).length = 1) :=
  ⟨by decide,
    find_harmony_iterations headQ 0 1 (fun _ _ => 0) (fun _ _ => ⟨1, 0, 0, 0⟩) 1 1 0
      (by decide)⟩

/-- C9: the Harmony Memory size is a search invariant: `generate_hm` creates
an `hms × d` memory, `improvise` and `change_hm` each map an `hms × d`
memory to an `hms × d` memory, and every memory reached by the search loop
has exactly `hms` rows of `d` components — the memory is never resized. -/
theorem memory_size_invariant (f : List ℚ → ℚ) (hmcr par : ℚ) (hms d : Nat)
    (sample : Nat → Nat → ℚ) (rowDraws : Nat → Draws) (draws : Nat → Nat → Draws) :
    Shape hms d (generate_hm hms d sample) ∧
    (∀ hm, Shape hms d hm → Shape hms d (improvise hmcr par rowDraws hm)) ∧
    (∀ old_hm new_hm, Shape hms d old_hm → Shape hms d new_hm →
      Shape hms d (change_hm f old_hm new_hm)) ∧
    (∀ n, Shape hms d (searchLoop f hmcr par draws n (generate_hm hms d sample))) :=
  ⟨shape_generate hms d sample,
    fun _ h => shape_improvise hmcr par rowDraws h,
    fun _ _ h1 h2 => shape_change_hm f h1 h2,
    fun n => shape_searchLoop f hmcr par draws n (shape_generate hms d sample)⟩

/-- Witness for C9 at a concrete configuration. -/
theorem memory_size_invariant_witness :
    Shape 2 1 (generate_hm 2 1 fun _ _ => 0) ∧
    (∀ hm, Shape 2 1 hm → Shape 2 1 (improvise 0 1 (fun _ => ⟨1, 0, 0, 0⟩) hm)) ∧
    (∀ old_hm new_hm, Shape 2 1 old_hm → Shape 2 1 new_hm →
      Shape 2 1 (change_hm headQ old_hm new_hm)) ∧
    (∀ n, Shape 2 1 (searchLoop headQ 0 1 (fun _ _ => ⟨1, 0, 0, 0⟩) n
      (generate_hm 2 1 fun _ _ => 0))) :=
  memory_size_invariant headQ 0 1 2 1 (fun _ _ => 0) (fun _ => ⟨1, 0, 0, 0⟩)
    (fun _ _ => ⟨1, 0, 0, 0⟩)

/-- C10: with `max_iter = 0`, `find_harmony` still returns a well-defined
result: the row of the freshly generated initial memory at the index of
minimum fitness, whose fitness is at most the fitness of every row of that
initial memory. -/
theorem find_harmony_zero_iterations (f : List ℚ → ℚ) (hmcr par : ℚ)
    (sample : Nat → Nat → ℚ) (draws : Nat → Nat → Draws) (hms d : Nat)
    (hhms : 1 ≤ hms) :
    find_harmony f hms d hmcr par 0 sample draws =
      (generate_hm hms d sample).getD
        (argmin (eval f (generate_hm hms d sample))) [] ∧
    ∀ i, i < hms → f (find_harmony f hms d hmcr par 0 sample draws) ≤
      f ((generate_hm hms d sample).getD i []) := by
  have h0 : find_harmony f hms d hmcr par 0 sample draws =
      (generate_hm hms d sample).getD
        (argmin (eval f (generate_hm hms d sample))) [] := rfl
  refine ⟨h0, ?_⟩
  intro i hi
  have hlen : (generate_hm hms d sample).length = hms := (shape_generate hms d sample).1
  have hne : generate_hm hms d sample ≠ [] := by
    intro hnil
    rw [hnil] at hlen
    simp at hlen
    omega
  have harg : argmin (eval f (generate_hm hms d sample)) <
      (generate_hm hms d sample).length := by
    rw [← eval_length f]
    exact argmin_lt_length (eval_ne_nil f hne)
  have hi' : i < (generate_hm hms d sample).length := by rw [hlen]; exact hi
  rw [h0, ← eval_getD f _ harg, getD_argmin (eval_ne_nil f hne), ← eval_getD f _ hi']
  exact minQ_le_of_mem (getD_mem _ 0 (by rw [eval_length]; exact hi'))

/-- Witness for C10 at a concrete configuration. -/
theorem find_harmony_zero_iterations_witness :
    (1 : Nat) ≤ 2 ∧
    (find_harmony headQ 2 1 0 1 0 (fun i _ => i) (fun _ _ => ⟨1, 0, 0, 0⟩) =
      (generate_hm 2 1 fun i _ => i).getD
        (argmin (eval headQ (generate_hm 2 1 fun i _ => i))) [] ∧
    ∀ i, i < 2 → headQ (find_harmony headQ 2 1 0 1 0 (fun i _ => i) (fun _ _ => ⟨1, 0, 0, 0⟩)) ≤
      headQ ((generate_hm 2 1 fun i _ => i).getD i [])) :=
  ⟨by decide,
    find_harmony_zero_iterations headQ 0 1 (fun i _ => i) (fun _ _ => ⟨1, 0, 0, 0⟩) 2 1
      (by decide)⟩

end HarmonySearch
